import Mathlib

/-!
Verification development for the Group23 Hex MCTS agent
(`agents/Group23/MCTSAgent.py`, `agents/Group23/mcts.py`,
`agents/Group23/AlphaZeroAgent.py`).

The Python classes are shallowly embedded as executable Lean definitions:
the search-tree node, the tree operations (`is_fully_expanded`, `add_child`,
`update_tree`), backpropagation, the end-of-budget best-child selection
(Python's `max` with a key, which keeps the first maximum), the time-bounded
search loop, the `savebridge` heuristic move generator, the visit-count
distribution of the AlphaZero variant, and the turn-time budgeter
`allowed_time`.  Machine floats of the budgeter are embedded as exact
rationals; `random.choice` is embedded by an explicit index choice; the
wall clock is embedded as an explicit list of successive clock readings.
-/

set_option maxRecDepth 40000

/-- The two player colours, as in `src/Colour.py` (an external collaborator
of the embedded files; only the two values and `opposite` are used). -/
inductive Colour : Type where
  | RED : Colour
  | BLUE : Colour
deriving DecidableEq, Repr

/-- `Colour.opposite`, the involutive swap of the two colours. -/
def Colour.opposite : Colour → Colour
  | Colour.RED => Colour.BLUE
  | Colour.BLUE => Colour.RED

/-- A move: a pair of board coordinates, equality by coordinate
(`src/Move.py`, used as `Move(x, y)` by the embedded agents). -/
structure Move : Type where
  x : Nat
  y : Nat
deriving DecidableEq, Repr

instance : Inhabited Move := ⟨Move.mk 0 0⟩

/-- A board tile: coordinates plus an optional owning colour
(`src/Tile.py`; `tile.colour` is `None` while the cell is empty). -/
structure Tile : Type where
  x : Nat
  y : Nat
  colour : Option Colour
deriving DecidableEq, Repr

/-- Modelled from the spec: the external Board collaborator (`src/Board.py`
is not among the provided sources).  A square grid of tiles of a fixed
size; `colour_fn x y` is `board.tiles[x][y].colour`. -/
structure Board : Type where
  size : Nat
  colour_fn : Nat → Nat → Option Colour

/-- Modelled from the spec: `set_tile_colour` assigns a colour to a cell,
leaving every other cell unchanged (the write the engine performs through
`board.set_tile_colour(x, y, colour)`). -/
def set_tile_colour (b : Board) (x y : Nat) (c : Colour) : Board :=
  Board.mk b.size (fun i j => if i = x ∧ j = y then some c else b.colour_fn i j)

/-- A node of the MCTS search tree (`TreeNode` of `MCTSAgent.py`): the move
that led to it (`none` only at the root), the visit count, the win
accumulator, and the ordered list of children.  The Python back-reference
`parent` is represented structurally (a node's ancestors are the nodes on
the path from the root), so the mutable in-place updates of the Python code
become functions returning the updated nodes. -/
inductive TreeNode : Type where
  | mk : Option Move → Nat → Int → List TreeNode → TreeNode

/-- The move that produced the node. -/
def TreeNode.move : TreeNode → Option Move
  | TreeNode.mk m _ _ _ => m

/-- The visit count of the node. -/
def TreeNode.visits : TreeNode → Nat
  | TreeNode.mk _ v _ _ => v

/-- The win accumulator of the node. -/
def TreeNode.wins : TreeNode → Int
  | TreeNode.mk _ _ w _ => w

/-- The children of the node. -/
def TreeNode.children : TreeNode → List TreeNode
  | TreeNode.mk _ _ _ c => c

instance : Inhabited TreeNode := ⟨TreeNode.mk none 0 0 []⟩

/-- `TreeNode.is_fully_expanded(self, legal_moves)` of `MCTSAgent.py`:
`return len(self.children) == len(legal_moves)` — a pure length
comparison, no matching of the moves themselves. -/
def is_fully_expanded (n : TreeNode) (legal_moves : List Move) : Bool :=
  n.children.length == legal_moves.length

/-- `TreeNode.add_child(self, move)` of `MCTSAgent.py`: creates a fresh
child for the move, appends it to the children, and returns it.  The
result is the pair (updated parent, created child). -/
def add_child (n : TreeNode) (m : Move) : TreeNode × TreeNode :=
  let child := TreeNode.mk (some m) 0 0 []
  (TreeNode.mk n.move n.visits n.wins (n.children ++ [child]), child)

/-- `MCTSAgent.update_tree(self, tree, move)`: scan the children in order
and return the first one whose move equals the opponent move; if none
matches, return a fresh node carrying that move. -/
def update_tree (t : TreeNode) (m : Move) : TreeNode :=
  match t.children.find? (fun c => c.move == some m) with
  | some c => c
  | none => TreeNode.mk (some m) 0 0 []

/-- Python's `max(nodes, key=key)`: fold keeping the current best and
replacing it only on a strictly greater key, so the first maximum wins;
`none` models the `ValueError` raised on an empty sequence. -/
def py_max_by {β : Type} [LinearOrder β] (key : TreeNode → β) :
    List TreeNode → Option TreeNode
  | [] => none
  | x :: xs => some (xs.foldl (fun b c => if key b < key c then c else b) x)

/-- `MCTS._backpropagate(self, node, result)` (identical in `MCTSAgent.py`
and `mcts.py`): walk the chain from the evaluated node up to the root
(`node.parent` links, here the explicit list of ancestors starting at the
evaluated node), increment `visits`, add the current result to `wins`,
and invert the result before moving to the parent. -/
def backpropagate : List TreeNode → Int → List TreeNode
  | [], _ => []
  | n :: rest, r =>
      TreeNode.mk n.move (n.visits + 1) (n.wins + r) n.children ::
        backpropagate rest (1 - r)

/-- The value backpropagation adds to the win accumulator of the node `i`
levels above the evaluated node, for an evaluation result `r`: the result
is inverted once per level. -/
def bpResult (r : Int) (i : Nat) : Int :=
  if i % 2 = 0 then r else 1 - r

/-- The search loop of `MCTS.run` (`mcts.py` line 56, `MCTSAgent.py`
line 81): a pre-test `while time.time() - start_time < budget` loop.  The
successive readings of `time.time()` at the loop condition are passed as
an explicit list; one select/simulate/backpropagate iteration is the
abstract `body`.  Returns the final root and the number of iterations
executed. -/
def run_loop (body : TreeNode → TreeNode) (root : TreeNode)
    (start budget : Rat) : List Rat → TreeNode × Nat
  | [] => (root, 0)
  | t :: ts =>
      if t - start < budget then
        let out := run_loop body (body root) start budget ts
        (out.1, out.2 + 1)
      else (root, 0)

/-- `MCTS.run` of `MCTSAgent.py`: run the time-bounded loop, then pick the
best child of the root by visit count (`max(root.children, key=lambda
child: child.visits)`); `none` in the first component models the
`ValueError` that `max` raises when the root has no children. -/
def mcts_run (body : TreeNode → TreeNode) (root : TreeNode)
    (start budget : Rat) (checks : List Rat) : Option TreeNode × Nat :=
  let out := run_loop body root start budget checks
  (py_max_by (fun c => (c.visits : Rat)) out.1.children, out.2)

/-- `Utilities.RELATIVE_NEIGHBOURS` of `MCTSAgent.py`: the six hex
adjacency offsets. -/
def RELATIVE_NEIGHBOURS : List (Int × Int) :=
  [(-1, -1), (-1, 0), (0, -1), (0, 1), (1, 0), (1, 1)]

/-- `Utilities.is_within_bounds(board, x, y)`. -/
def is_within_bounds (b : Board) (x y : Int) : Bool :=
  decide (0 ≤ x) && decide (x < (b.size : Int)) &&
  decide (0 ≤ y) && decide (y < (b.size : Int))

/-- `Utilities.get_neighbours(board, x, y)`: the in-bounds neighbour tiles
of a cell, in offset order. -/
def get_neighbours (b : Board) (x y : Nat) : List Tile :=
  RELATIVE_NEIGHBOURS.filterMap (fun o =>
    let xn : Int := (x : Int) + o.1
    let yn : Int := (y : Int) + o.2
    if is_within_bounds b xn yn then
      some (Tile.mk xn.toNat yn.toNat (b.colour_fn xn.toNat yn.toNat))
    else none)

/-- `itertools.combinations(l, 2)`: all ordered pairs `(l[i], l[j])` with
`i < j`, in Python's iteration order. -/
def pairs {α : Type} : List α → List (α × α)
  | [] => []
  | x :: xs => xs.map (fun y => (x, y)) ++ pairs xs

/-- `MCTS.is_bridge(self, n1, n2, move)` of `MCTSAgent.py`: the two
neighbour tiles are at coordinate distance 2 in both axes and the move is
their exact midpoint (Python `//`; the coordinates are non-negative, so
floor division agrees with `Nat` division). -/
def is_bridge (n1 n2 : Tile) (m : Move) : Bool :=
  ((n1.x : Int) - (n2.x : Int)).natAbs == 2 &&
  ((n1.y : Int) - (n2.y : Int)).natAbs == 2 &&
  m.x == (n1.x + n2.x) / 2 && m.y == (n1.y + n2.y) / 2

/-- `MCTS.completes_wheel(self, board, x, y, colour)` of `MCTSAgent.py`:
at least three same-coloured neighbours. -/
def completes_wheel (b : Board) (x y : Nat) (colour : Colour) : Bool :=
  decide (3 ≤ ((get_neighbours b x y).filter
    (fun t => t.colour == some colour)).length)

/-- `MCTS.savebridge(self, board, colour, legal_moves)` of `MCTSAgent.py`:
for each legal move, append the move once per pair of same-coloured
neighbours forming a bridge with it; then append every legal move that
completes a wheel. -/
def savebridge (b : Board) (colour : Colour) (legal_moves : List Move) :
    List Move :=
  (legal_moves.flatMap (fun m =>
    ((pairs (get_neighbours b m.x m.y)).filter (fun p =>
      p.1.colour == some colour && p.2.colour == some colour &&
      is_bridge p.1 p.2 m)).map (fun _ => m))) ++
  legal_moves.filter (fun m => completes_wheel b m.x m.y colour)

/-- `MCTS._get_legal_moves(self, board)` of `MCTSAgent.py`: every tile
whose colour is neither RED nor BLUE, row by row, as moves. -/
def get_legal_moves (b : Board) : List Move :=
  (List.range b.size).flatMap (fun x =>
    (List.range b.size).filterMap (fun y =>
      if b.colour_fn x y ≠ some Colour.RED ∧ b.colour_fn x y ≠ some Colour.BLUE
      then some (Move.mk x y) else none))

/-- `MCTS._default_policy(self, board, colour, legal_moves)` of
`MCTSAgent.py`: draw from the savebridge set when it is non-empty,
otherwise from the full legal-move list.  `random.choice` is embedded by
an explicit draw index `k`, reduced modulo the list length. -/
def default_policy (b : Board) (colour : Colour) (legal_moves : List Move)
    (k : Nat) : Move :=
  if 0 < (savebridge b colour legal_moves).length then
    (savebridge b colour legal_moves).getD
      (k % (savebridge b colour legal_moves).length) (Move.mk 0 0)
  else
    legal_moves.getD (k % legal_moves.length) (Move.mk 0 0)

/-- An empty 11×11 board: every cell unowned. -/
def empty_board : Board := Board.mk 11 (fun _ _ => none)

/-- The geometric decay rate of `AlphaZeroAgent.allowed_time`
(`decay_rate = 0.97`), as an exact rational. -/
def decay_rate : Rat := 97 / 100

/-- The weight list `[decay_rate ** i for i in range(total_turns)]` of
`AlphaZeroAgent.allowed_time`. -/
def weights (total_turns : Nat) : List Rat :=
  (List.range total_turns).map (fun i => decay_rate ^ i)

/-- `AlphaZeroAgent.allowed_time(self, turn_number, total_turns,
total_time)`: the 1-indexed turn's weight, normalized by the total weight,
times the total time.  Python floats are embedded as exact rationals. -/
def allowed_time (turn_number total_turns : Nat) (total_time : Rat) : Rat :=
  ((weights total_turns).getD (turn_number - 1) 0 /
    (weights total_turns).sum) * total_time

/-- The 11×11 integer grid `distribution_board` of
`MCTS._get_visit_count_distribution` (`mcts.py`), as a function. -/
def Grid : Type := Nat → Nat → Nat

/-- The all-zero grid `[[0] * 11] * 11`. -/
def zero_grid : Grid := fun _ _ => 0

/-- Add `v` to one cell of the grid. -/
def bump_cell (g : Grid) (x y v : Nat) : Grid :=
  fun i j => if i = x ∧ j = y then g i j + v else g i j

/-- `distribution_board[child.move.x][child.move.y] += child.visits` for
one node (a node with no move contributes nothing; in the source every
non-root node carries a move). -/
def count_node (g : Grid) (c : TreeNode) : Grid :=
  match c.move with
  | some m => bump_cell g m.x m.y c.visits
  | none => g

mutual

/-- `MCTS._count_visits_DFS(self, node, distribution_board)` of `mcts.py`:
for each child, add its visit count to its move's cell, then recurse into
the child — the whole subtree contributes, not only the direct children. -/
def count_visits_DFS : TreeNode → Grid → Grid
  | TreeNode.mk _ _ _ cs, g => count_children cs g

/-- The `for child in node.children` loop of `_count_visits_DFS`. -/
def count_children : List TreeNode → Grid → Grid
  | [], g => g
  | c :: cs, g => count_children cs (count_visits_DFS c (count_node g c))

end

mutual

/-- All proper descendants of a node, in the DFS visiting order of
`_count_visits_DFS`. -/
def descendants : TreeNode → List TreeNode
  | TreeNode.mk _ _ _ cs => desc_list cs

/-- Descendant enumeration of a child list: each child followed by its own
descendants. -/
def desc_list : List TreeNode → List TreeNode
  | [] => []
  | c :: cs => c :: (descendants c ++ desc_list cs)

end

/-- `total_visits = sum(sum(row) for row in distribution_board)` of
`_get_visit_count_distribution`: the sum of the filled grid over the
11×11 cells. -/
def total_visits (n : TreeNode) : Nat :=
  (Finset.range 11).sum (fun i =>
    (Finset.range 11).sum (fun j => count_visits_DFS n zero_grid i j))

/-- `MCTS._get_visit_count_distribution(self, node)` of `mcts.py`,
pointwise: each cell of the filled grid divided by the total
(`distribution_board[i][j] /= total_visits`), in exact rationals. -/
def distribution (n : TreeNode) (i j : Nat) : Rat :=
  (count_visits_DFS n zero_grid i j : Rat) / (total_visits n : Rat)

/-- The declarative description the DFS grid is proved to implement: the
summed visit counts of the descendants whose move lies on cell `(i, j)`. -/
def cell_total (l : List TreeNode) (i j : Nat) : Nat :=
  (l.map (fun d => if d.move = some (Move.mk i j) then d.visits else 0)).sum

/-- `MCTSAgent.make_move(self, turn, board, opp_move)`: lazily create the
root, fold the opponent move into the tree and write its colour onto the
board, run the search (abstracted as `run`, the value `MCTS.run` returns
for the updated tree), write the chosen move's colour onto the board, and
return the move.  `none` models the attribute error raised when the
returned node carries no move. -/
def make_move (colour : Colour) (run : TreeNode → TreeNode)
    (tree : Option TreeNode) (board : Board) (opp_move : Option Move) :
    Option (Move × Board × TreeNode) :=
  let t0 := tree.getD (TreeNode.mk none 0 0 [])
  let t1 := match opp_move with
    | some m => update_tree t0 m
    | none => t0
  let b1 := match opp_move with
    | some m => set_tile_colour board m.x m.y colour.opposite
    | none => board
  let t2 := run t1
  match t2.move with
  | some mv => some (mv, set_tile_colour b1 mv.x mv.y colour, t2)
  | none => none

/-- `bpResult` at the evaluated node itself is the raw result. -/
theorem bpResult_zero (r : Int) : bpResult r 0 = r := by
  simp [bpResult]

/-- Stepping one level up inverts the propagated result. -/
theorem bpResult_succ (r : Int) (i : Nat) :
    bpResult r (i + 1) = bpResult (1 - r) i := by
  unfold bpResult
  rcases Nat.mod_two_eq_zero_or_one i with h | h
  · have h2 : (i + 1) % 2 = 1 := by omega
    simp [h, h2]
  · have h2 : (i + 1) % 2 = 0 := by omega
    simp [h, h2]

/-- Backpropagation touches every node of the ancestor chain and nothing
else: the updated chain has the same length. -/
theorem backpropagate_length :
    ∀ (chain : List TreeNode) (r : Int),
      (backpropagate chain r).length = chain.length := by
  intro chain
  induction chain with
  | nil => intro r; rfl
  | cons n rest ih => intro r; simp [backpropagate, ih]

/-- The node `i` levels above the evaluated node after one backpropagation
pass: visits incremented, `bpResult r i` added to wins, move and children
untouched. -/
theorem backpropagate_getD :
    ∀ (chain : List TreeNode) (r : Int) (i : Nat), i < chain.length →
      (backpropagate chain r).getD i default =
        TreeNode.mk (chain.getD i default).move
          ((chain.getD i default).visits + 1)
          ((chain.getD i default).wins + bpResult r i)
          (chain.getD i default).children := by
  intro chain
  induction chain with
  | nil => intro r i h; exact absurd h (by simp)
  | cons n rest ih =>
    intro r i h
    cases i with
    | zero => simp [backpropagate, bpResult_zero]
    | succ i =>
      have hi : i < rest.length := by simpa using h
      simp only [backpropagate, List.getD_cons_succ]
      rw [ih (1 - r) i hi, bpResult_succ]

/-- C2: one backpropagation pass started at a node with a binary result
`r` increments the visit count of that node and of each of its ancestors
up to the root by exactly 1, adds to each node's win accumulator a value
alternating between `r` and `1 - r` level by level (consecutive levels'
added values sum to 1), and modifies no other node field.  The chain lists
the evaluated node first and the root last. -/
theorem backpropagate_spec (chain : List TreeNode) (r : Int)
    (_hr : r = 0 ∨ r = 1) :
    (backpropagate chain r).length = chain.length ∧
    (∀ i, i < chain.length →
      ((backpropagate chain r).getD i default).visits
          = (chain.getD i default).visits + 1 ∧
      ((backpropagate chain r).getD i default).wins
          = (chain.getD i default).wins + bpResult r i ∧
      ((backpropagate chain r).getD i default).move
          = (chain.getD i default).move ∧
      ((backpropagate chain r).getD i default).children
          = (chain.getD i default).children) ∧
    (∀ i, bpResult r i + bpResult r (i + 1) = 1) ∧
    (∀ i, bpResult r i = r ∨ bpResult r i = 1 - r) := by
  refine ⟨backpropagate_length chain r, ?_, ?_, ?_⟩
  · intro i h
    rw [backpropagate_getD chain r i h]
    exact ⟨rfl, rfl, rfl, rfl⟩
  · intro i
    unfold bpResult
    rcases Nat.mod_two_eq_zero_or_one i with h | h
    · have h2 : (i + 1) % 2 = 1 := by omega
      simp [h, h2]
    · have h2 : (i + 1) % 2 = 0 := by omega
      simp [h, h2]
  · intro i
    unfold bpResult
    split
    · exact Or.inl rfl
    · exact Or.inr rfl

/-- A concrete ancestor chain: evaluated node, its parent, the root. -/
def bp_chain : List TreeNode :=
  [TreeNode.mk (some (Move.mk 2 3)) 4 1 [],
   TreeNode.mk (some (Move.mk 0 1)) 7 3 [],
   TreeNode.mk none 9 5 []]

/-- Witness for the backpropagation theorem at the chain `bp_chain` with
result 1. -/
theorem backpropagate_spec_witness :
    ((1 : Int) = 0 ∨ (1 : Int) = 1) ∧
    (backpropagate bp_chain 1).length = bp_chain.length :=
  ⟨Or.inr rfl, (backpropagate_spec bp_chain 1 (Or.inr rfl)).1⟩

/-- The two root children of the best-child counterexample: `child_A` is
the most visited (10 visits, win rate 1/5), `child_B` has the higher win
rate (5 visits, win rate 4/5). -/
def child_A : TreeNode := TreeNode.mk (some (Move.mk 0 0)) 10 2 []

/-- The higher-win-rate, less-visited sibling of `child_A`. -/
def child_B : TreeNode := TreeNode.mk (some (Move.mk 1 1)) 5 4 []

/-- C1: the final selection of `MCTS.run` in `mcts.py` (line 65) maximizes
`child.wins / child.visits`, not `child.visits`, although the comment
above it says "Choose the most visited child": on a root whose children
are `child_A` (10 visits, 2 wins) and `child_B` (5 visits, 4 wins), the
win-rate selection the code performs returns `child_B`'s move while the
most-visited child is `child_A` — a different move.  (`MCTSAgent.py`
line 88 does maximize `child.visits`.) -/
theorem best_child_winrate_not_visits :
    (py_max_by (fun c => (c.wins : Rat) / (c.visits : Rat))
        [child_A, child_B]).map TreeNode.move = some (some (Move.mk 1 1)) ∧
    (py_max_by (fun c => (c.visits : Rat))
        [child_A, child_B]).map TreeNode.move = some (some (Move.mk 0 0)) ∧
    Move.mk 1 1 ≠ Move.mk 0 0 := by
  refine ⟨?_, ?_, by decide⟩
  · have h : ((child_A.wins : Rat) / (child_A.visits : Rat)
        < (child_B.wins : Rat) / (child_B.visits : Rat)) = True := by
      simp only [child_A, child_B, TreeNode.wins, TreeNode.visits]
      norm_num
    simp [py_max_by, h]
    rfl
  · have h : ¬ (child_A.visits < child_B.visits) := by decide
    simp [py_max_by, h]
    rfl

/-- C4: the search loop is a pre-test `while` loop, so with a
non-positive budget no iteration runs at all and the best-child selection
is taken over a root with zero children, which fails (Python raises
`ValueError`, here `none`): with budget 0, a first clock reading equal to
the start time and a fresh childless root, `MCTS.run` performs 0
iterations and the selection yields no child. -/
theorem run_zero_budget_no_iteration :
    mcts_run (fun t => t) (TreeNode.mk none 0 0 []) 0 0 [0] = (none, 0) := by
  have h : ¬ ((0 : Rat) - 0 < 0) := by norm_num
  simp [mcts_run, run_loop, h, py_max_by, TreeNode.children]

/-- A node with one child for move (0,0). -/
def n_mismatch : TreeNode :=
  TreeNode.mk none 1 0 [TreeNode.mk (some (Move.mk 0 0)) 1 0 []]

/-- The candidate list of the `is_fully_expanded` counterexample: one
move, different from the child's. -/
def ms_mismatch : List Move := [Move.mk 1 1]

/-- C5 counterexample: `is_fully_expanded` only compares lengths, so on a
node whose single child carries move (0,0) and the single candidate move
(1,1) it returns `true` although the candidate has no matching child. -/
theorem is_fully_expanded_counterexample :
    is_fully_expanded n_mismatch ms_mismatch = true ∧
    ¬ (∀ m ∈ ms_mismatch, ∃ c ∈ n_mismatch.children, c.move = some m) := by
  decide

/-- C5 amended: `is_fully_expanded` returns `true` iff the child count
equals the candidate count; under the invariants the search maintains for
a single search (children's moves pairwise distinct, each drawn from the
candidate list, candidate list duplicate-free) that is equivalent to every
candidate move already having a matching child. -/
theorem is_fully_expanded_iff (n : TreeNode) (ms : List Move)
    (h1 : (n.children.map TreeNode.move).Nodup)
    (h2 : ms.Nodup)
    (h3 : ∀ c ∈ n.children, ∃ m ∈ ms, c.move = some m) :
    is_fully_expanded n ms = true ↔
      ∀ m ∈ ms, ∃ c ∈ n.children, c.move = some m := by
  have hmsm : (ms.map some).Nodup := h2.map (Option.some_injective Move)
  have hsub : ∀ o ∈ n.children.map TreeNode.move, o ∈ ms.map some := by
    intro o ho
    obtain ⟨c, hc, rfl⟩ := List.mem_map.mp ho
    obtain ⟨m, hm, he⟩ := h3 c hc
    rw [he]
    exact List.mem_map.mpr ⟨m, hm, rfl⟩
  have hsubF : (n.children.map TreeNode.move).toFinset ⊆ (ms.map some).toFinset := by
    intro o ho
    exact List.mem_toFinset.mpr (hsub o (List.mem_toFinset.mp ho))
  have hlen : is_fully_expanded n ms = true ↔
      n.children.length = ms.length := by
    simp [is_fully_expanded]
  rw [hlen]
  constructor
  · intro hl m hm
    have hcard : ((ms.map some).toFinset).card ≤
        ((n.children.map TreeNode.move).toFinset).card := by
      rw [List.toFinset_card_of_nodup h1, List.toFinset_card_of_nodup hmsm,
        List.length_map, List.length_map, hl]
    have heq := Finset.eq_of_subset_of_card_le hsubF hcard
    have : some m ∈ n.children.map TreeNode.move := by
      have hmem : some m ∈ (ms.map some).toFinset :=
        List.mem_toFinset.mpr (List.mem_map.mpr ⟨m, hm, rfl⟩)
      rw [← heq] at hmem
      exact List.mem_toFinset.mp hmem
    obtain ⟨c, hc, he⟩ := List.mem_map.mp this
    exact ⟨c, hc, he⟩
  · intro hall
    have hsub2 : ∀ o ∈ ms.map some, o ∈ n.children.map TreeNode.move := by
      intro o ho
      obtain ⟨m, hm, rfl⟩ := List.mem_map.mp ho
      obtain ⟨c, hc, he⟩ := hall m hm
      exact List.mem_map.mpr ⟨c, hc, he⟩
    have hsubF2 : (ms.map some).toFinset ⊆
        (n.children.map TreeNode.move).toFinset := by
      intro o ho
      exact List.mem_toFinset.mpr (hsub2 o (List.mem_toFinset.mp ho))
    have heq : (n.children.map TreeNode.move).toFinset = (ms.map some).toFinset :=
      Finset.Subset.antisymm hsubF hsubF2
    have := congrArg Finset.card heq
    rw [List.toFinset_card_of_nodup h1, List.toFinset_card_of_nodup hmsm,
      List.length_map, List.length_map] at this
    exact this

/-- C6 counterexample: `add_child` performs no duplicate check — called
with a move already carried by an existing child it does not fail: it
returns the freshly created child and leaves two siblings with the same
move. -/
theorem add_child_counterexample :
    (add_child n_mismatch (Move.mk 0 0)).2.move = some (Move.mk 0 0) ∧
    (add_child n_mismatch (Move.mk 0 0)).1.children.countP
        (fun c => c.move == some (Move.mk 0 0)) = 2 := by
  decide

/-- C6 amended: `add_child` unconditionally appends a fresh child
(visits 0, wins 0) carrying the move and returns it; in particular,
calling it with a move already present among the children produces two
siblings sharing that move (duplicate prevention is the caller's job:
`_expand` only passes unexpanded moves). -/
theorem add_child_no_duplicate_check (n : TreeNode) (m : Move)
    (h : ∃ c ∈ n.children, c.move = some m) :
    2 ≤ (add_child n m).1.children.countP (fun c => c.move == some m) ∧
    (add_child n m).2.move = some m ∧
    (add_child n m).2.visits = 0 ∧ (add_child n m).2.wins = 0 := by
  obtain ⟨c, hc, hcm⟩ := h
  have hpos : 0 < n.children.countP (fun c => c.move == some m) :=
    List.countP_pos_iff.mpr ⟨c, hc, by simp [hcm]⟩
  refine ⟨?_, rfl, rfl, rfl⟩
  have hsplit : (add_child n m).1.children
      = n.children ++ [TreeNode.mk (some m) 0 0 []] := rfl
  rw [hsplit, List.countP_append]
  have h1 : List.countP (fun c => c.move == some m)
      [TreeNode.mk (some m) 0 0 []] = 1 := by
    simp [List.countP_cons, TreeNode.move]
  omega

/-- Witness for the amended `add_child` theorem on a node already owning
a child for move (0,0). -/
theorem add_child_no_duplicate_check_witness :
    (∃ c ∈ n_mismatch.children, c.move = some (Move.mk 0 0)) ∧
    2 ≤ (add_child n_mismatch (Move.mk 0 0)).1.children.countP
        (fun c => c.move == some (Move.mk 0 0)) :=
  ⟨by decide,
    (add_child_no_duplicate_check n_mismatch (Move.mk 0 0) (by decide)).1⟩

/-- C7: `update_tree` with an opponent move that matches an existing child
returns that existing child itself (an element of the old child list, so
its subtree and its visit/win statistics are the retained ones), and with
an unmatched move returns a fresh node carrying the move with zero visits,
zero wins and no children. -/
theorem update_tree_spec (t : TreeNode) (m : Move) :
    ((∃ c ∈ t.children, c.move = some m) →
      update_tree t m ∈ t.children ∧ (update_tree t m).move = some m) ∧
    ((∀ c ∈ t.children, c.move ≠ some m) →
      (update_tree t m).visits = 0 ∧ (update_tree t m).wins = 0 ∧
      (update_tree t m).move = some m ∧ (update_tree t m).children = []) := by
  constructor
  · intro h
    cases hfind : t.children.find? (fun c => c.move == some m) with
    | none =>
      obtain ⟨c, hc, hcm⟩ := h
      have := List.find?_eq_none.mp hfind c hc
      simp [hcm] at this
    | some c =>
      have hmem := List.mem_of_find?_eq_some hfind
      have hpred := List.find?_some hfind
      have hmv : c.move = some m := by simpa using hpred
      unfold update_tree
      rw [hfind]
      exact ⟨hmem, hmv⟩
  · intro h
    cases hfind : t.children.find? (fun c => c.move == some m) with
    | none =>
      unfold update_tree
      rw [hfind]
      exact ⟨rfl, rfl, rfl, rfl⟩
    | some c =>
      have hmem := List.mem_of_find?_eq_some hfind
      have hpred := List.find?_some hfind
      have hmv : c.move = some m := by simpa using hpred
      exact absurd hmv (h c hmem)

/-- A retained root with a child for move (3,4) carrying non-zero
statistics, and a sibling. -/
def t_reuse : TreeNode :=
  TreeNode.mk none 9 4
    [TreeNode.mk (some (Move.mk 3 4)) 5 2 [],
     TreeNode.mk (some (Move.mk 0 1)) 4 2 []]

/-- Witness for the tree-reuse theorem at the retained root `t_reuse` and
opponent move (3,4). -/
theorem update_tree_spec_witness :
    (∃ c ∈ t_reuse.children, c.move = some (Move.mk 3 4)) ∧
    (update_tree t_reuse (Move.mk 3 4) ∈ t_reuse.children ∧
      (update_tree t_reuse (Move.mk 3 4)).move = some (Move.mk 3 4)) :=
  ⟨by decide, (update_tree_spec t_reuse (Move.mk 3 4)).1 (by decide)⟩

/-- A node whose single child matches the single candidate move. -/
def n_match : TreeNode :=
  TreeNode.mk none 1 0 [TreeNode.mk (some (Move.mk 2 3)) 1 0 []]

/-- The candidate list matching `n_match`'s child. -/
def ms_match : List Move := [Move.mk 2 3]

/-- Witness for the amended `is_fully_expanded` theorem at `n_match`. -/
theorem is_fully_expanded_iff_witness :
    ((n_match.children.map TreeNode.move).Nodup ∧ ms_match.Nodup ∧
      (∀ c ∈ n_match.children, ∃ m ∈ ms_match, c.move = some m)) ∧
    is_fully_expanded n_match ms_match = true :=
  ⟨⟨by decide, by decide, by decide⟩,
    (is_fully_expanded_iff n_match ms_match (by decide) (by decide)
      (by decide)).mpr (by decide)⟩

/-- The weight of turn `k + 1` (0-indexed slot `k`) of the budgeter is the
`k`-th power of the decay rate. -/
theorem weights_getD (n k : Nat) (h : k < n) :
    (weights n).getD k 0 = decay_rate ^ k := by
  simp [weights, List.getD_eq_getElem?_getD, List.getElem?_range h]

/-- The total weight of the budgeter is positive. -/
theorem weights_sum_pos (n : Nat) (h : 0 < n) : 0 < (weights n).sum := by
  apply List.sum_pos
  · intro x hx
    obtain ⟨i, _, rfl⟩ := List.mem_map.mp hx
    have hd : (0 : Rat) < decay_rate := by norm_num [decay_rate]
    exact pow_pos hd i
  · have hlen : (weights n).length = n := by simp [weights]
    intro hnil
    rw [hnil] at hlen
    simp at hlen
    omega

/-- Summing a list after dividing by a constant and scaling equals the
divided, scaled sum. -/
theorem list_sum_div_mul (l : List Rat) (W c : Rat) :
    (l.map (fun x => x / W * c)).sum = l.sum / W * c := by
  induction l with
  | nil => simp
  | cons a t ih =>
    simp only [List.map_cons, List.sum_cons, ih]
    ring

/-- C3: with 121 total turns and a 300-second clock, `allowed_time` is
strictly decreasing in the turn index over turns 1..121, the exact
(rational) sum of the 121 allotted times is 300, and in particular the
sum is within the claimed 1e-6 tolerance of 300. -/
theorem allowed_time_spec :
    (∀ i, 1 ≤ i → i < 121 →
      allowed_time (i + 1) 121 300 < allowed_time i 121 300) ∧
    ((List.range 121).map (fun i => allowed_time (i + 1) 121 300)).sum = 300 ∧
    |((List.range 121).map (fun i => allowed_time (i + 1) 121 300)).sum - 300|
      ≤ 1 / 1000000 := by
  have hW : 0 < (weights 121).sum := weights_sum_pos 121 (by norm_num)
  have hd0 : (0 : Rat) < decay_rate := by norm_num [decay_rate]
  have hd1 : decay_rate < 1 := by norm_num [decay_rate]
  have hsum :
      ((List.range 121).map (fun i => allowed_time (i + 1) 121 300)).sum
        = 300 := by
    have hmap : (List.range 121).map (fun i => allowed_time (i + 1) 121 300)
        = (weights 121).map (fun x => x / (weights 121).sum * 300) := by
      rw [weights, List.map_map]
      apply List.map_congr_left
      intro i hi
      have hi121 : i < 121 := List.mem_range.mp hi
      unfold allowed_time
      rw [show i + 1 - 1 = i from rfl, weights_getD 121 i hi121]
      rfl
    rw [hmap, list_sum_div_mul, div_self (ne_of_gt hW)]
    norm_num
  refine ⟨?_, hsum, by rw [hsum]; norm_num⟩
  intro i h1 h2
  unfold allowed_time
  rw [show i + 1 - 1 = i from rfl, weights_getD 121 i h2,
    weights_getD 121 (i - 1) (by omega)]
  have hpow : decay_rate ^ i < decay_rate ^ (i - 1) :=
    pow_lt_pow_right_of_lt_one₀ hd0 hd1 (by omega)
  have hdiv : decay_rate ^ i / (weights 121).sum
      < decay_rate ^ (i - 1) / (weights 121).sum :=
    (div_lt_div_iff_of_pos_right hW).mpr hpow
  exact mul_lt_mul_of_pos_right hdiv (by norm_num)

/-- Witness for the budgeter theorem: turn 2 receives strictly less time
than turn 1. -/
theorem allowed_time_spec_witness :
    (1 ≤ 1 ∧ 1 < 121) ∧ allowed_time 2 121 300 < allowed_time 1 121 300 :=
  ⟨⟨le_refl 1, by norm_num⟩, allowed_time_spec.1 1 (le_refl 1) (by norm_num)⟩

/-- An in-range `getD` is a member of the list. -/
theorem list_getD_mem {α : Type} (l : List α) (k : Nat) (d : α)
    (h : k < l.length) : l.getD k d ∈ l := by
  rw [List.getD_eq_getElem?_getD, List.getElem?_eq_getElem h]
  exact List.getElem_mem h

/-- C8: the default rollout policy draws from the savebridge set whenever
it is non-empty and otherwise from the full legal-move list (for every
draw index); and on an empty 11×11 board the savebridge set is empty for
either colour while the legal-move list it falls back to has all 121
cells. -/
theorem default_policy_spec :
    (∀ (b : Board) (c : Colour) (lm : List Move) (k : Nat), lm ≠ [] →
      (savebridge b c lm ≠ [] → default_policy b c lm k ∈ savebridge b c lm) ∧
      (savebridge b c lm = [] → default_policy b c lm k ∈ lm)) ∧
    (∀ c : Colour,
      savebridge empty_board c (get_legal_moves empty_board) = []) ∧
    (get_legal_moves empty_board).length = 121 := by
  refine ⟨?_, ?_, by decide⟩
  · intro b c lm k hlm
    constructor
    · intro hsb
      have hpos : 0 < (savebridge b c lm).length := List.length_pos.mpr hsb
      unfold default_policy
      rw [if_pos hpos]
      exact list_getD_mem _ _ _ (Nat.mod_lt _ hpos)
    · intro hsb
      have hzero : ¬ (0 < (savebridge b c lm).length) := by simp [hsb]
      unfold default_policy
      rw [if_neg hzero]
      exact list_getD_mem _ _ _ (Nat.mod_lt _ (List.length_pos.mpr hlm))
  · intro c
    cases c <;> decide

/-- Witness for the default-policy theorem on the empty board: the
savebridge set is empty there, so the draw falls back to the legal-move
list. -/
theorem default_policy_spec_witness :
    (get_legal_moves empty_board ≠ []) ∧
    ((savebridge empty_board Colour.RED (get_legal_moves empty_board) ≠ [] →
        default_policy empty_board Colour.RED (get_legal_moves empty_board) 0
          ∈ savebridge empty_board Colour.RED (get_legal_moves empty_board)) ∧
      (savebridge empty_board Colour.RED (get_legal_moves empty_board) = [] →
        default_policy empty_board Colour.RED (get_legal_moves empty_board) 0
          ∈ get_legal_moves empty_board)) :=
  ⟨by decide,
    default_policy_spec.1 empty_board Colour.RED
      (get_legal_moves empty_board) 0 (by decide)⟩

/-- The bump one node applies to the grid, pointwise: its visit count on
its own move's cell, nothing elsewhere. -/
theorem count_node_apply (g : Grid) (c : TreeNode) (i j : Nat) :
    count_node g c i j = g i j +
      (if c.move = some (Move.mk i j) then c.visits else 0) := by
  cases c with
  | mk mo v w cs =>
    cases mo with
    | none => simp [count_node, TreeNode.move]
    | some m =>
      obtain ⟨mx, my⟩ := m
      have hcond : (some (Move.mk mx my) = some (Move.mk i j))
          ↔ (i = mx ∧ j = my) := by
        constructor
        · intro h
          have h' := Option.some.inj h
          exact ⟨(congrArg Move.x h').symm, (congrArg Move.y h').symm⟩
        · rintro ⟨rfl, rfl⟩
          rfl
      show bump_cell g mx my v i j = g i j +
        (if (some (Move.mk mx my) = some (Move.mk i j)) then v else 0)
      unfold bump_cell
      by_cases h : i = mx ∧ j = my
      · rw [if_pos h, if_pos (hcond.mpr h)]
      · rw [if_neg h, if_neg (fun hh => h (hcond.mp hh))]
        simp

/-- `cell_total` distributes over cons. -/
theorem cell_total_cons (c : TreeNode) (l : List TreeNode) (i j : Nat) :
    cell_total (c :: l) i j =
      (if c.move = some (Move.mk i j) then c.visits else 0)
        + cell_total l i j := by
  simp [cell_total]

/-- `cell_total` distributes over append. -/
theorem cell_total_append (l1 l2 : List TreeNode) (i j : Nat) :
    cell_total (l1 ++ l2) i j = cell_total l1 i j + cell_total l2 i j := by
  simp [cell_total]

mutual

/-- The DFS grid fill, pointwise: it adds to each cell the summed visit
counts of all the node's proper descendants whose move lies on that
cell. -/
theorem count_visits_DFS_apply (n : TreeNode) (g : Grid) (i j : Nat) :
    count_visits_DFS n g i j = g i j + cell_total (descendants n) i j := by
  cases n with
  | mk mo v w cs =>
    show count_children cs g i j = g i j + cell_total (desc_list cs) i j
    exact count_children_apply cs g i j

/-- The child-list loop of the DFS grid fill, pointwise. -/
theorem count_children_apply (cs : List TreeNode) (g : Grid) (i j : Nat) :
    count_children cs g i j = g i j + cell_total (desc_list cs) i j := by
  cases cs with
  | nil => simp [count_children, desc_list, cell_total]
  | cons c cs =>
    show count_children cs (count_visits_DFS c (count_node g c)) i j
      = g i j + cell_total (desc_list (c :: cs)) i j
    rw [count_children_apply cs (count_visits_DFS c (count_node g c)) i j,
      count_visits_DFS_apply c (count_node g c) i j,
      count_node_apply g c i j]
    show _ = g i j + cell_total (c :: (descendants c ++ desc_list cs)) i j
    rw [cell_total_cons, cell_total_append]
    ring

end

/-- A root with one child (move (0,0), 2 visits) whose own child (move
(1,1), 1 visit) lies one level deeper. -/
def deep_tree : TreeNode :=
  TreeNode.mk none 3 0
    [TreeNode.mk (some (Move.mk 0 0)) 2 0
      [TreeNode.mk (some (Move.mk 1 1)) 1 0 []]]

/-- C9 counterexample: the DFS recurses below the root's children, so the
cell (1,1) — which carries no root-child move, only a grandchild's move —
receives 1/3 instead of the zero the claim requires. -/
theorem distribution_counterexample :
    (∀ c ∈ deep_tree.children, c.move ≠ some (Move.mk 1 1)) ∧
    distribution deep_tree 1 1 = 1 / 3 ∧
    distribution deep_tree 1 1 ≠ 0 := by
  have htot : total_visits deep_tree = 3 := by decide
  have hg : count_visits_DFS deep_tree zero_grid 1 1 = 1 := by decide
  have hdist : distribution deep_tree 1 1 = 1 / 3 := by
    unfold distribution
    rw [htot, hg]
    norm_num
  refine ⟨by decide, hdist, by rw [hdist]; norm_num⟩

/-- C9 amended: the returned training distribution maps each cell to the
summed visit counts of ALL tree nodes below the root whose move lies on
that cell (the DFS includes nodes deeper than the root's children),
divided by the grand total; cells on which no such node's move lies get
zero; and the 11×11 entries sum to 1 whenever at least one visit was
recorded. -/
theorem distribution_spec (n : TreeNode) (hpos : 0 < total_visits n) :
    (Finset.range 11).sum (fun i =>
      (Finset.range 11).sum (fun j => distribution n i j)) = 1 ∧
    (∀ i j, (∀ d ∈ descendants n, d.move ≠ some (Move.mk i j)) →
      distribution n i j = 0) ∧
    (∀ i j, distribution n i j
      = (cell_total (descendants n) i j : Rat) / (total_visits n : Rat)) := by
  have hcell : ∀ i j,
      count_visits_DFS n zero_grid i j = cell_total (descendants n) i j := by
    intro i j
    rw [count_visits_DFS_apply]
    simp [zero_grid]
  have hT : ((total_visits n : Rat)) ≠ 0 := Nat.cast_ne_zero.mpr hpos.ne'
  refine ⟨?_, ?_, ?_⟩
  · unfold distribution
    simp only [← Finset.sum_div]
    rw [div_eq_one_iff_eq hT]
    unfold total_visits
    push_cast
    rfl
  · intro i j hno
    have hzero : cell_total (descendants n) i j = 0 := by
      unfold cell_total
      apply List.sum_eq_zero
      intro x hx
      obtain ⟨d, hd, rfl⟩ := List.mem_map.mp hx
      rw [if_neg (hno d hd)]
    unfold distribution
    rw [hcell, hzero]
    simp
  · intro i j
    unfold distribution
    rw [hcell]

/-- Witness for the amended distribution theorem at `deep_tree`. -/
theorem distribution_spec_witness :
    0 < total_visits deep_tree ∧
    (Finset.range 11).sum (fun i =>
      (Finset.range 11).sum (fun j => distribution deep_tree i j)) = 1 :=
  ⟨by decide, (distribution_spec deep_tree (by decide)).1⟩

/-- C10: whenever `make_move` returns, the board it leaves behind holds
the agent's own colour on the returned move's cell; it holds the
opponent's colour on the opponent move's cell (when an opponent move was
given and that cell is not the returned cell, which would overwrite it);
and every other cell is exactly as the caller passed it in — the only
board mutations are those two writes. -/
theorem make_move_board_writes (colour : Colour) (run : TreeNode → TreeNode)
    (tree : Option TreeNode) (board : Board) (opp : Option Move)
    (mv : Move) (b2 : Board) (t2 : TreeNode)
    (h : make_move colour run tree board opp = some (mv, b2, t2)) :
    b2.colour_fn mv.x mv.y = some colour ∧
    (∀ m, opp = some m → ¬(m.x = mv.x ∧ m.y = mv.y) →
      b2.colour_fn m.x m.y = some colour.opposite) ∧
    (∀ i j, ¬(i = mv.x ∧ j = mv.y) →
      (∀ m, opp = some m → ¬(i = m.x ∧ j = m.y)) →
      b2.colour_fn i j = board.colour_fn i j) := by
  cases opp with
  | none =>
    simp only [make_move] at h
    cases hmv : (run (tree.getD (TreeNode.mk none 0 0 []))).move with
    | none =>
      rw [hmv] at h
      simp at h
    | some mv' =>
      rw [hmv] at h
      simp only [Option.some.injEq, Prod.mk.injEq] at h
      obtain ⟨e1, e2, e3⟩ := h
      subst e1
      subst e2
      refine ⟨?_, ?_, ?_⟩
      · show (if mv'.x = mv'.x ∧ mv'.y = mv'.y then some colour
          else board.colour_fn mv'.x mv'.y) = some colour
        rw [if_pos ⟨rfl, rfl⟩]
      · intro m hm
        cases hm
      · intro i j hne _
        show (if i = mv'.x ∧ j = mv'.y then some colour
          else board.colour_fn i j) = board.colour_fn i j
        rw [if_neg hne]
  | some m =>
    simp only [make_move] at h
    cases hmv : (run (update_tree (tree.getD (TreeNode.mk none 0 0 [])) m)).move with
    | none =>
      rw [hmv] at h
      simp at h
    | some mv' =>
      rw [hmv] at h
      simp only [Option.some.injEq, Prod.mk.injEq] at h
      obtain ⟨e1, e2, e3⟩ := h
      subst e1
      subst e2
      refine ⟨?_, ?_, ?_⟩
      · show (if mv'.x = mv'.x ∧ mv'.y = mv'.y then some colour
          else (set_tile_colour board m.x m.y colour.opposite).colour_fn mv'.x mv'.y)
            = some colour
        rw [if_pos ⟨rfl, rfl⟩]
      · intro m' hm' hne
        have hm : m' = m := (Option.some.inj hm').symm
        subst hm
        show (if m'.x = mv'.x ∧ m'.y = mv'.y then some colour
          else (set_tile_colour board m'.x m'.y colour.opposite).colour_fn m'.x m'.y)
            = some colour.opposite
        rw [if_neg hne]
        show (if m'.x = m'.x ∧ m'.y = m'.y then some colour.opposite
          else board.colour_fn m'.x m'.y) = some colour.opposite
        rw [if_pos ⟨rfl, rfl⟩]
      · intro i j hne hno
        have hnom : ¬ (i = m.x ∧ j = m.y) := hno m rfl
        show (if i = mv'.x ∧ j = mv'.y then some colour
          else (set_tile_colour board m.x m.y colour.opposite).colour_fn i j)
            = board.colour_fn i j
        rw [if_neg hne]
        show (if i = m.x ∧ j = m.y then some colour.opposite
          else board.colour_fn i j) = board.colour_fn i j
        rw [if_neg hnom]

/-- A search stub returning a fixed best child carrying move (2,2). -/
def run_fixed : TreeNode → TreeNode :=
  fun _ => TreeNode.mk (some (Move.mk 2 2)) 1 1 []

/-- Witness for the `make_move` board-write theorem: starting from the
empty board with opponent move (1,1), the call returns move (2,2) and the
returned board holds the agent's colour there. -/
theorem make_move_board_writes_witness :
    make_move Colour.RED run_fixed none empty_board (some (Move.mk 1 1))
      = some (Move.mk 2 2,
          set_tile_colour (set_tile_colour empty_board 1 1 Colour.RED.opposite)
            2 2 Colour.RED,
          TreeNode.mk (some (Move.mk 2 2)) 1 1 []) ∧
    (set_tile_colour (set_tile_colour empty_board 1 1 Colour.RED.opposite)
        2 2 Colour.RED).colour_fn 2 2 = some Colour.RED :=
  ⟨rfl,
    (make_move_board_writes Colour.RED run_fixed none empty_board
      (some (Move.mk 1 1)) (Move.mk 2 2)
      (set_tile_colour (set_tile_colour empty_board 1 1 Colour.RED.opposite)
        2 2 Colour.RED)
      (TreeNode.mk (some (Move.mk 2 2)) 1 1 []) rfl).1⟩
